import Mathlib

/-!
Verification of three source files of the firebase-tools CLI against its
specification: `src/frameworks/next/utils.ts` (pure predicates over parsed
Next.js build manifests), `src/bin/cli.ts` (log-file selection and the exit
and uncaught-exception handlers), and `src/mcp/tools/auth/disable_user.ts`
(the disable_user tool handler).  Each TypeScript function is embedded as a
computable Lean definition; external collaborators (the file system, the
remote project API, `isUrl`) appear as explicit parameters or, where the
specification describes them, as definitions modelled from the spec.
-/

/-! ## Next.js framework utilities (src/frameworks/next/utils.ts) -/

/-- Embedding of the regex test `/(?<!\\)\(/.test(path)` from `pathHasRegex`
(utils.ts line 21), scanning left to right: `prev` is the character just
before the current position (`none` at the start of the string).  The test
succeeds when some opening parenthesis is not immediately preceded by a
backslash character. -/
def pathHasRegexGo : Option Char → List Char → Bool
  | _, [] => false
  | prev, c :: rest =>
    (c == '(' && !(prev == some '\\')) || pathHasRegexGo (some c) rest

/-- From utils.ts lines 19-22: whether the given path has a regex, i.e.
whether it contains a parenthesis not preceded by a backslash. -/
def pathHasRegex (path : String) : Bool :=
  pathHasRegexGo none path.data

/-- The character class `[(){}:+?*]` of the replace pattern in
`cleanEscapedChars` (utils.ts line 39). -/
def escapableChars : List Char :=
  ['(', ')', '{', '}', ':', '+', '?', '*']

/-- Embedding of `path.replace(/\\([(){}:+?*])/g, (a, b) => b)` from
`cleanEscapedChars` (utils.ts lines 38-40): a left-to-right non-overlapping
scan; each match of a backslash followed by an escapable character is
replaced by that character alone, and scanning resumes after the match. -/
def cleanEscapedCharsList : List Char → List Char
  | [] => []
  | [c] => [c]
  | a :: b :: rest =>
    if a = '\\' ∧ b ∈ escapableChars then b :: cleanEscapedCharsList rest
    else a :: cleanEscapedCharsList (b :: rest)

/-- From utils.ts lines 38-40: remove escaping from characters used for
regex path matching. -/
def cleanEscapedChars (path : String) : String :=
  String.mk (cleanEscapedCharsList path.data)

/-- The spec's description of `cleanEscapedChars`: remove exactly one
backslash immediately preceding each occurrence of one of `( ) { } : + ? *`,
leaving every other character in place. -/
def removeEscapingBackslashes : List Char → List Char
  | [] => []
  | [c] => [c]
  | a :: b :: rest =>
    if a = '\\' ∧ b ∈ escapableChars then removeEscapingBackslashes (b :: rest)
    else a :: removeEscapingBackslashes (b :: rest)

/-- Whether the character list contains a backslash immediately followed by
an escapable character (an input with none is "already unescaped"). -/
def hasEscapePair : List Char → Bool
  | [] => false
  | [_] => false
  | a :: b :: rest =>
    if a = '\\' ∧ b ∈ escapableChars then true else hasEscapePair (b :: rest)

/-- A Next.js rewrite as examined by `isRewriteSupportedByHosting`: its
`source` and `destination` strings, and whether the optional `has`
(conditional-match) property is present — the code only tests presence,
via `"has" in rewrite`. -/
structure Rewrite where
  source : String
  destination : String
  has : Bool

/-- From utils.ts lines 57-59: whether a Next.js rewrite is supported by
`firebase.json`.  `isUrl` is the predicate imported from `../utils`
(outside the provided files), passed here as a parameter. -/
def isRewriteSupportedByHosting (isUrl : String → Bool) (rewrite : Rewrite) : Bool :=
  !(rewrite.has || pathHasRegex rewrite.source || isUrl rewrite.destination)

/-- A Next.js redirect as examined by `isRedirectSupportedByHosting`: its
`source` and `destination` strings and the presence of the optional `has`
and `internal` properties. -/
structure Redirect where
  source : String
  destination : String
  has : Bool
  internal : Bool

/-- From utils.ts lines 76-78: whether a Next.js redirect is supported by
`firebase.json`.  The destination is not examined. -/
def isRedirectSupportedByHosting (redirect : Redirect) : Bool :=
  !(redirect.has || pathHasRegex redirect.source || redirect.internal)

/-- The shape of `Manifest["rewrites"]` as consumed by
`getNextjsRewritesToUse`: an array, an object with optional `beforeFiles`,
`afterFiles` and `fallback` arrays (`none` marks an absent key), or a
nullish value (`null`/`undefined`, short-circuited by `?.` in the code).
`α` stands for the externally defined `RoutesManifestRewrite` shape. -/
inductive NextJsRewrites (α : Type) where
  | array (rewrites : List α)
  | object (beforeFiles afterFiles fallback : Option (List α))
  | nullish

/-- From utils.ts lines 106-118: which Next.js rewrites will be used.  Note
that in JavaScript an array — even an empty one — is truthy, so a present
`beforeFiles` key is returned whatever its contents. -/
def getNextjsRewritesToUse {α : Type} : NextJsRewrites α → List α
  | .array rs => rs
  | .object (some beforeFiles) _ _ => beforeFiles
  | .object none _ _ => []
  | .nullish => []

/-! ## CLI bootstrap (src/bin/cli.ts) -/

/-- Outcome of `fs.openSync(path, "r+")` as distinguished by
`findAvailableLogFile` (cli.ts lines 40-52): success, failure with code
ENOENT, or failure with any other code. -/
inductive OpenResult where
  | opened
  | enoent
  | otherError
deriving DecidableEq

/-- From cli.ts lines 32-35: the candidate log file names, `firebase-debug.log`
followed by `firebase-debug.1.log` … `firebase-debug.9.log`. -/
def candidates : List String :=
  "firebase-debug.log" ::
    (List.range' 1 9).map (fun i => "firebase-debug." ++ toString i ++ ".log")

/-- Model of `join(process.cwd(), c)` (cli.ts line 38) for a directory and a
relative file name. -/
def joinPath (dir file : String) : String :=
  dir ++ "/" ++ file

/-- Whether a candidate is usable: `openSync` on its joined path does not
fail with a non-ENOENT error (cli.ts lines 40-52 return the path both on
success and on ENOENT). -/
def candidateUsable (openSync : String → OpenResult) (cwd : String) (c : String) : Bool :=
  match openSync (joinPath cwd c) with
  | .otherError => false
  | _ => true

/-- The `for (const c of candidates)` loop of `findAvailableLogFile`
(cli.ts lines 37-53): return the joined path of the first candidate whose
open succeeds or fails with ENOENT; `none` models falling through to the
`throw` on line 55. -/
def findAvailableLogFileLoop (openSync : String → OpenResult) (cwd : String) :
    List String → Option String
  | [] => none
  | c :: rest =>
    match openSync (joinPath cwd c) with
    | .opened => some (joinPath cwd c)
    | .enoent => some (joinPath cwd c)
    | .otherError => findAvailableLogFileLoop openSync cwd rest

/-- From cli.ts lines 31-56: `findAvailableLogFile`, with the file system
(`fs.openSync` composed with `fs.closeSync`) abstracted as `openSync` and
the working directory as `cwd`. -/
def findAvailableLogFile (openSync : String → OpenResult) (cwd : String) : Option String :=
  findAvailableLogFileLoop openSync cwd candidates

/-- JavaScript truthiness of a `string | undefined` value such as
`process.env.DEBUG` or the ambient `projectId`: `undefined` and the empty
string are falsy, every other string is truthy. -/
def jsStringTruthy : Option String → Bool
  | none => false
  | some s => !(s == "")

/-- The process state the exit listener of cli.ts (lines 92-96) reads:
`process.env.DEBUG`, `process.exitCode` (possibly unset), the exit code
passed to the listener, and whether the log file exists
(`fsutils.fileExistsSync(logFilename)`). -/
structure ExitState where
  debugEnv : Option String
  processExitCode : Option Int
  exitCallbackCode : Int
  logFileExists : Bool

/-- From cli.ts line 93, `code = process.exitCode || code`: JavaScript `||`
keeps `process.exitCode` only when it is set and non-zero (zero is falsy). -/
def effectiveExitCode (s : ExitState) : Int :=
  match s.processExitCode with
  | some n => if n = 0 then s.exitCallbackCode else n
  | none => s.exitCallbackCode

/-- From cli.ts lines 92-96: whether the exit listener deletes the log file,
i.e. whether `!process.env.DEBUG && code < 2 && fileExistsSync(logFilename)`
holds. -/
def exitHandlerDeletesLog (s : ExitState) : Bool :=
  !jsStringTruthy s.debugEnv && decide (effectiveExitCode s < 2) && s.logFileExists

/-- Outcome of handling an uncaught exception. -/
inductive UncaughtOutcome where
  | reportedAndTerminated (err : String)
deriving DecidableEq

/-- Modelled from the spec: `errorOut` (imported from `../errorOut`, not
among the provided files) reports the exception and terminates the
process — "Uncaught exceptions at the process level are caught by a global
handler that reports and terminates." -/
def errorOut (err : String) : UncaughtOutcome :=
  UncaughtOutcome.reportedAndTerminated err

/-- From cli.ts lines 148-150: the listeners `cli` registers for the
`uncaughtException` process event — exactly one, `(err) => errorOut(err)`. -/
def uncaughtExceptionHandlers : List (String → UncaughtOutcome) :=
  [fun err => errorOut err]

/-- Dispatch of an uncaught exception to every registered listener, as the
Node.js runtime does for the `uncaughtException` event. -/
def handleUncaughtException (err : String) : List UncaughtOutcome :=
  uncaughtExceptionHandlers.map (fun h => h err)

/-! ## The disable_user tool (src/mcp/tools/auth/disable_user.ts) -/

/-- Content returned by an MCP tool handler: either a structured error
object or the wrapped value of a fetched resource.  `α` stands for the
externally defined project-resource shape. -/
inductive ToolContent (α : Type) where
  | errorContent (message : String)
  | content (value : α)
deriving DecidableEq

/-- Modelled from the spec: `mcpError` (imported from `../../util.js`, not
among the provided files) builds a structured error content object —
"Tool handlers return a structured error object when required context
(e.g., project identifier) is absent, rather than throwing." -/
def mcpError {α : Type} (message : String) : ToolContent α :=
  ToolContent.errorContent message

/-- Modelled from the spec: `toContent` (imported from `../../util.js`, not
among the provided files) returns "the fetched project resource as
content". -/
def toContent {α : Type} (value : α) : ToolContent α :=
  ToolContent.content value

/-- From disable_user.ts lines 21-24: the handler of the tool exported as
`get_project` (named "disable_user").  `getProject` is the remote API call
imported from `../../../management/projects.js`, passed as a parameter;
`projectId` is the ambient project identifier, checked for JavaScript
falsiness by `if (!projectId)`.  The `uid` and `disable` inputs are never
used. -/
def disable_user_handler {α : Type} (getProject : String → α)
    (uid : String) (disable : Bool) (projectId : Option String) : ToolContent α :=
  match projectId with
  | none => mcpError "No current project detected."
  | some pid =>
    if pid == "" then mcpError "No current project detected."
    else toContent (getProject pid)

/-! ## Theorems -/

/-- C1: for every rewrite, `isRewriteSupportedByHosting` returns false if
the rewrite has a `has` (conditional-match) property, or its source path
has a regex per `pathHasRegex`, or its destination is an absolute URL per
`isUrl`; for every rewrite with none of these three features it returns
true.  Stated for an arbitrary `isUrl` predicate. -/
theorem isRewriteSupportedByHosting_spec (isUrl : String → Bool) (r : Rewrite) :
    (isRewriteSupportedByHosting isUrl r = false ↔
      (r.has = true ∨ pathHasRegex r.source = true ∨ isUrl r.destination = true)) ∧
    ((r.has = false ∧ pathHasRegex r.source = false ∧ isUrl r.destination = false) →
      isRewriteSupportedByHosting isUrl r = true) := by
  unfold isRewriteSupportedByHosting
  constructor
  · cases h1 : r.has <;> cases h2 : pathHasRegex r.source <;>
      cases h3 : isUrl r.destination <;> simp
  · rintro ⟨h1, h2, h3⟩
    simp [h1, h2, h3]

/-- C9: `isRedirectSupportedByHosting` returns false exactly when the
redirect has a `has` property, a regex-bearing source path, or an
`internal` property; the destination is never examined, so changing it
never changes the verdict. -/
theorem isRedirectSupportedByHosting_spec (r : Redirect) (d : String) :
    (isRedirectSupportedByHosting r = false ↔
      (r.has = true ∨ pathHasRegex r.source = true ∨ r.internal = true)) ∧
    isRedirectSupportedByHosting (Redirect.mk r.source d r.has r.internal) =
      isRedirectSupportedByHosting r := by
  constructor
  · unfold isRedirectSupportedByHosting
    cases h1 : r.has <;> cases h2 : pathHasRegex r.source <;>
      cases h3 : r.internal <;> simp
  · rfl

/-- C4: `getNextjsRewritesToUse` returns an array manifest unchanged,
returns the `beforeFiles` list of an object with only a `beforeFiles` key,
and returns the empty list for anything that is neither an array nor an
object providing `beforeFiles` (including null/undefined). -/
theorem getNextjsRewritesToUse_spec {α : Type} (rs bf : List α)
    (af fb : Option (List α)) :
    getNextjsRewritesToUse (NextJsRewrites.array rs) = rs ∧
    getNextjsRewritesToUse (NextJsRewrites.object (some bf) none none) = bf ∧
    getNextjsRewritesToUse (NextJsRewrites.object none af fb) = [] ∧
    getNextjsRewritesToUse (NextJsRewrites.nullish : NextJsRewrites α) = [] :=
  ⟨rfl, rfl, rfl, rfl⟩

/-- C10: for an object manifest whose `beforeFiles` field is a non-empty
list, `getNextjsRewritesToUse` returns exactly that list whatever the
`afterFiles` and `fallback` keys hold (they are always discarded), and for
an empty `beforeFiles` list it returns the empty list. -/
theorem getNextjsRewritesToUse_beforeFiles {α : Type} (bf : List α)
    (af fb : Option (List α)) :
    (bf ≠ [] →
      getNextjsRewritesToUse (NextJsRewrites.object (some bf) af fb) = bf) ∧
    getNextjsRewritesToUse (NextJsRewrites.object (some []) af fb) = ([] : List α) :=
  ⟨fun _ => rfl, rfl⟩

/-- C10 witness: the statement instantiated at a concrete manifest with
non-empty `beforeFiles` and present `afterFiles`/`fallback` keys. -/
theorem getNextjsRewritesToUse_beforeFiles_witness :
    getNextjsRewritesToUse
      (NextJsRewrites.object (some [0]) (some [1]) (some [2])) = [0] :=
  (getNextjsRewritesToUse_beforeFiles [0] (some [1]) (some [2])).1 (by decide)

/-- C5: the disable_user tool handler returns a structured error content
object when the ambient `projectId` is falsy (absent or empty), otherwise
returns the project resource fetched via `getProject` as content, and in no
case does its result depend on `uid` or `disable` — it performs no
enable/disable mutation of the user. -/
theorem disable_user_handler_spec {α : Type} (getProject : String → α)
    (uid : String) (disable : Bool) (projectId : Option String) :
    (jsStringTruthy projectId = false →
      disable_user_handler getProject uid disable projectId =
        ToolContent.errorContent "No current project detected.") ∧
    (jsStringTruthy projectId = true →
      ∃ pid, projectId = some pid ∧
        disable_user_handler getProject uid disable projectId =
          ToolContent.content (getProject pid)) ∧
    (∀ uid2 disable2,
      disable_user_handler getProject uid disable projectId =
        disable_user_handler getProject uid2 disable2 projectId) := by
  cases projectId with
  | none =>
    refine ⟨fun _ => rfl, fun h => absurd h (by simp [jsStringTruthy]), ?_⟩
    intro uid2 disable2
    rfl
  | some pid =>
    cases hp : (pid == "") with
    | true =>
      refine ⟨fun _ => ?_, fun h => ?_, fun uid2 disable2 => ?_⟩
      · simp [disable_user_handler, hp, mcpError]
      · simp [jsStringTruthy, hp] at h
      · simp [disable_user_handler, hp]
    | false =>
      refine ⟨fun h => ?_, fun _ => ⟨pid, rfl, ?_⟩, fun uid2 disable2 => ?_⟩
      · simp [jsStringTruthy, hp] at h
      · simp [disable_user_handler, hp, toContent]
      · simp [disable_user_handler, hp]

/-- C7: the `cli` bootstrap registers exactly one global handler for the
`uncaughtException` process event, that handler invokes `errorOut` on the
exception, and dispatching any uncaught exception yields only the
reported-and-terminated outcome — no uncaught exception escapes it. -/
theorem uncaughtException_spec (err : String) :
    uncaughtExceptionHandlers.length = 1 ∧
    handleUncaughtException err =
      [UncaughtOutcome.reportedAndTerminated err] ∧
    ∀ o ∈ handleUncaughtException err, o = errorOut err := by
  refine ⟨rfl, rfl, ?_⟩
  intro o ho
  simpa [handleUncaughtException, uncaughtExceptionHandlers, errorOut] using ho

/-- C6 counterexample: with `DEBUG` set to the empty string (a set but
JavaScript-falsy value), exit code 0 and an existing log file, the exit
listener deletes the log file, refuting the claim that the file is
retained for every exit with `DEBUG` set. -/
theorem exitHandler_deletes_despite_debug_set :
    (ExitState.mk (some "") none 0 true).debugEnv ≠ none ∧
    exitHandlerDeletesLog (ExitState.mk (some "") none 0 true) = true := by
  constructor
  · simp
  · rfl

/-- C6 (amended): on process exit the log file is deleted if and only if
the `DEBUG` environment variable is JavaScript-falsy (unset or set to the
empty string), the effective exit code (`process.exitCode || code`) is
less than 2, and the log file exists; for every exit with `DEBUG` set to a
non-empty value or with effective exit code 2 or greater, the log file is
retained. -/
theorem exitHandlerDeletesLog_spec (s : ExitState) :
    (exitHandlerDeletesLog s = true ↔
      (jsStringTruthy s.debugEnv = false ∧ effectiveExitCode s < 2 ∧
        s.logFileExists = true)) ∧
    ((jsStringTruthy s.debugEnv = true ∨ 2 ≤ effectiveExitCode s) →
      exitHandlerDeletesLog s = false) := by
  have hiff : exitHandlerDeletesLog s = true ↔
      (jsStringTruthy s.debugEnv = false ∧ effectiveExitCode s < 2 ∧
        s.logFileExists = true) := by
    unfold exitHandlerDeletesLog
    cases hd : jsStringTruthy s.debugEnv <;> cases hf : s.logFileExists <;>
      by_cases hc : effectiveExitCode s < 2 <;> simp [hc]
  refine ⟨hiff, ?_⟩
  intro h
  cases hdel : exitHandlerDeletesLog s with
  | false => rfl
  | true =>
    rcases hiff.mp hdel with ⟨h1, h2, -⟩
    rcases h with h3 | h3
    · rw [h1] at h3
      exact absurd h3 (by simp)
    · omega

/-- C2: `findAvailableLogFile` tries the ten candidates
`firebase-debug.log`, `firebase-debug.1.log` … `firebase-debug.9.log` in
that order and returns the (joined) path of the first one whose open
succeeds or fails with ENOENT, and it reaches the `throw` (modelled as
`none`) if and only if opening every one of the ten candidates fails with
a non-ENOENT error. -/
theorem findAvailableLogFile_spec (openSync : String → OpenResult) (cwd : String) :
    candidates = ["firebase-debug.log", "firebase-debug.1.log",
      "firebase-debug.2.log", "firebase-debug.3.log", "firebase-debug.4.log",
      "firebase-debug.5.log", "firebase-debug.6.log", "firebase-debug.7.log",
      "firebase-debug.8.log", "firebase-debug.9.log"] ∧
    findAvailableLogFile openSync cwd =
      (candidates.find? (candidateUsable openSync cwd)).map (joinPath cwd) ∧
    (findAvailableLogFile openSync cwd = none ↔
      ∀ c ∈ candidates, openSync (joinPath cwd c) = OpenResult.otherError) := by
  have hloop : ∀ l : List String, findAvailableLogFileLoop openSync cwd l =
      (l.find? (candidateUsable openSync cwd)).map (joinPath cwd) := by
    intro l
    induction l with
    | nil => rfl
    | cons c rest ih =>
      cases hc : openSync (joinPath cwd c) with
      | opened =>
        have hu : candidateUsable openSync cwd c = true := by
          simp [candidateUsable, hc]
        simp [findAvailableLogFileLoop, hc, List.find?_cons_of_pos, hu]
      | enoent =>
        have hu : candidateUsable openSync cwd c = true := by
          simp [candidateUsable, hc]
        simp [findAvailableLogFileLoop, hc, List.find?_cons_of_pos, hu]
      | otherError =>
        have hu : ¬candidateUsable openSync cwd c = true := by
          simp [candidateUsable, hc]
        simp [findAvailableLogFileLoop, hc, List.find?_cons_of_neg, hu, ih]
  refine ⟨by rfl, hloop candidates, ?_⟩
  rw [show findAvailableLogFile openSync cwd =
    findAvailableLogFileLoop openSync cwd candidates from rfl, hloop candidates]
  constructor
  · intro h c hc
    have hfind : candidates.find? (candidateUsable openSync cwd) = none := by
      cases hf : candidates.find? (candidateUsable openSync cwd) with
      | none => rfl
      | some x => rw [hf] at h; exact absurd h (by simp)
    have := List.find?_eq_none.mp hfind c hc
    revert this
    cases hx : openSync (joinPath cwd c) <;> simp [candidateUsable, hx]
  · intro h
    have hfind : candidates.find? (candidateUsable openSync cwd) = none := by
      apply List.find?_eq_none.mpr
      intro c hc
      simp [candidateUsable, h c hc]
    rw [hfind]
    rfl

/-- Every escapable character differs from the backslash, so the second
character of a match can never begin a new match. -/
lemma mem_escapableChars_ne_backslash {b : Char} (hb : b ∈ escapableChars) :
    b ≠ '\\' := by
  fin_cases hb <;> decide

/-- An escapable character at the head of the remaining input is kept as is
by the declarative removal. -/
lemma removeEscapingBackslashes_cons_escapable (b : Char) (rest : List Char)
    (hb : b ∈ escapableChars) :
    removeEscapingBackslashes (b :: rest) = b :: removeEscapingBackslashes rest := by
  cases rest with
  | nil => rfl
  | cons r rest2 =>
    have hne : ¬(b = '\\' ∧ r ∈ escapableChars) := by
      rintro ⟨h1, -⟩
      exact mem_escapableChars_ne_backslash hb h1
    simp only [removeEscapingBackslashes, if_neg hne]

/-- The left-to-right replace scan of `cleanEscapedChars` deletes exactly
the backslashes that immediately precede an escapable character. -/
lemma cleanEscapedCharsList_eq_remove (l : List Char) :
    cleanEscapedCharsList l = removeEscapingBackslashes l := by
  induction l using cleanEscapedCharsList.induct with
  | case1 => rfl
  | case2 c => rfl
  | case3 a b rest h ih =>
    rw [cleanEscapedCharsList, removeEscapingBackslashes, if_pos h, if_pos h,
      removeEscapingBackslashes_cons_escapable b rest h.2, ih]
  | case4 a b rest h ih =>
    rw [cleanEscapedCharsList, removeEscapingBackslashes, if_neg h, if_neg h, ih]

/-- On input without any backslash-escapable pair the replace scan leaves
every character in place. -/
lemma cleanEscapedCharsList_id_of_no_pair (l : List Char)
    (h : hasEscapePair l = false) : cleanEscapedCharsList l = l := by
  induction l using cleanEscapedCharsList.induct with
  | case1 => rfl
  | case2 c => rfl
  | case3 a b rest hcond ih =>
    rw [hasEscapePair, if_pos hcond] at h
    exact absurd h (by simp)
  | case4 a b rest hcond ih =>
    rw [hasEscapePair, if_neg hcond] at h
    rw [cleanEscapedCharsList, if_neg hcond, ih h]

/-- C3: `cleanEscapedChars` removes exactly one backslash immediately
preceding each occurrence of one of `( ) { } : + ? *` (it agrees with the
declarative single-backslash removal `removeEscapingBackslashes`), and on
every already-unescaped input — one with no backslash immediately followed
by such a character — it is the identity, hence idempotent there. -/
theorem cleanEscapedChars_spec (p : String) :
    cleanEscapedChars p = String.mk (removeEscapingBackslashes p.data) ∧
    (hasEscapePair p.data = false →
      cleanEscapedChars p = p ∧
      cleanEscapedChars (cleanEscapedChars p) = cleanEscapedChars p) := by
  constructor
  · unfold cleanEscapedChars
    rw [cleanEscapedCharsList_eq_remove]
  · intro h
    have hid : cleanEscapedChars p = p := by
      cases p with
      | mk dt =>
        unfold cleanEscapedChars
        rw [cleanEscapedCharsList_id_of_no_pair dt h]
    exact ⟨hid, by rw [hid, hid]⟩

/-- The character just before the current scan position, given the
character before the scanned block (`prev`) and the block `u` already
scanned. -/
def lastOrPrev (prev : Option Char) (u : List Char) : Option Char :=
  match u.getLast? with
  | some d => some d
  | none => prev

lemma lastOrPrev_nil (prev : Option Char) : lastOrPrev prev [] = prev := rfl

lemma lastOrPrev_cons (prev : Option Char) (c : Char) (u : List Char) :
    lastOrPrev prev (c :: u) = lastOrPrev (some c) u := by
  cases u with
  | nil => rfl
  | cons d u2 =>
    cases h : (d :: u2).getLast? with
    | none =>
      rw [List.getLast?_eq_none_iff] at h
      exact absurd h (by simp)
    | some e =>
      simp [lastOrPrev, List.getLast?_cons_cons, h]

lemma lastOrPrev_none (u : List Char) : lastOrPrev none u = u.getLast? := by
  cases h : u.getLast? <;> simp [lastOrPrev, h]

/-- The scan of `pathHasRegex` succeeds exactly when the input splits
around an opening parenthesis whose immediately preceding character
(taking `prev` before the start) is not a backslash. -/
lemma pathHasRegexGo_iff (l : List Char) (prev : Option Char) :
    pathHasRegexGo prev l = true ↔
      ∃ u v, l = u ++ '(' :: v ∧ lastOrPrev prev u ≠ some '\\' := by
  induction l generalizing prev with
  | nil =>
    constructor
    · intro h
      exact absurd h (by simp [pathHasRegexGo])
    · rintro ⟨u, v, h, -⟩
      cases u <;> simp_all
  | cons c rest ih =>
    have hstep : pathHasRegexGo prev (c :: rest) =
        ((c == '(' && !(prev == some '\\')) || pathHasRegexGo (some c) rest) := rfl
    rw [hstep, Bool.or_eq_true, Bool.and_eq_true, ih]
    constructor
    · rintro (⟨hc, hp⟩ | ⟨u, v, hsplit, hlast⟩)
      · refine ⟨[], rest, ?_, ?_⟩
        · rw [beq_iff_eq] at hc
          rw [hc]
          rfl
        · rw [lastOrPrev_nil]
          simpa using hp
      · refine ⟨c :: u, v, by rw [hsplit]; rfl, ?_⟩
        rw [lastOrPrev_cons]
        exact hlast
    · rintro ⟨u, v, hsplit, hlast⟩
      cases u with
      | nil =>
        injection hsplit with h1 h2
        left
        constructor
        · rw [beq_iff_eq]
          exact h1
        · rw [lastOrPrev_nil] at hlast
          simpa using hlast
      | cons c2 u2 =>
        injection hsplit with h1 h2
        right
        refine ⟨u2, v, h2, ?_⟩
        rw [lastOrPrev_cons] at hlast
        rw [h1]
        exact hlast

/-- C8: `pathHasRegex` returns true if and only if the path contains an
opening parenthesis that is not immediately preceded by a backslash
character; in particular the two-character sequence backslash-parenthesis
is not treated as regex-bearing, despite the code comment speaking of
"double backslashes". -/
theorem pathHasRegex_spec (p : String) :
    (pathHasRegex p = true ↔
      ∃ u v, p.data = u ++ '(' :: v ∧ u.getLast? ≠ some '\\') ∧
    pathHasRegex (String.mk ['\\', '(']) = false := by
  constructor
  · rw [show pathHasRegex p = pathHasRegexGo none p.data from rfl,
      pathHasRegexGo_iff]
    simp only [lastOrPrev_none]
  · rfl
